import Mathlib

/-!
# Verification of the coin_calc word selector (`src/__main__.py`)

A shallow embedding of the program in Lean 4.  Words are lists of
characters, the pandas data frames become explicit lists and functions,
Python exceptions become `Except String`, and the Python float produced by
`int / int` division in `_read_coin_inventory` is modelled as an exact
rational (`ℚ`), which agrees with the float for all catalog-scale values.
The pandas `sort_values` call is modelled as an insertion sort on the
value column; every property proved about the sorted output here is
insensitive to the order of equal-valued rows.
-/

deriving instance DecidableEq for Except

namespace CoinCalc

/-- A raw word: the sequence of characters of one corpus token. -/
abbrev Word := List Char

/-- `Config` from the source: CLI-configurable parameters. -/
structure Config where
  value : Int
  value_range : Int
  minimum_number_letters : Nat
deriving DecidableEq

/-- The apostrophe character (written via its code point to keep the
source free of bare quote characters). -/
def apostrophe : Char := Char.ofNat 39

/-- `str.count("[c1c2...]")`: number of characters of `w` belonging to the
character class `cs`. -/
def countClass (cs : List Char) (w : Word) : Nat :=
  (w.filter (fun c => c ∈ cs)).length

/- The character classes appearing in `_extract_all_letters`. -/

def umlautA : List Char := ['ä', 'Ä']

def umlautO : List Char := ['ö', 'Ö']

def umlautU : List Char := ['ü', 'Ü']

def eszett : List Char := ['ß']

def accentE : List Char := ['è', 'é', 'ê', 'È', 'É', 'Ê']

def accentA : List Char := ['â', 'à', 'á', 'å', 'Â', 'À', 'Á', 'Å']

def accentN : List Char := ['ñ', 'Ñ']

def accentI : List Char := ['í', 'Í']

def accentO : List Char := ['ô', 'ó', 'Ô', 'Ó']

def accentC : List Char := ['ç', 'Ç']

def accentU : List Char := ['û', 'Û']

/-- `letters[letter] = Series(all_sanitized_words.str.count(f"[{letter.lower()}{letter.upper()}]"))`:
the base count of a catalog letter in a word. -/
def baseCount (L : Char) (w : Word) : Nat :=
  countClass [L.toLower, L.toUpper] w

/-- The accumulated special-glyph additions `letters[L] += count` of
`_extract_all_letters`, per target column `L`. -/
def specialAdd (w : Word) (L : Char) : Nat :=
  (if L = 'A' then countClass umlautA w + countClass accentA w else 0) +
  (if L = 'E' then
    countClass umlautA w + countClass umlautO w + countClass umlautU w +
      countClass accentE w else 0) +
  (if L = 'O' then countClass umlautO w + countClass accentO w else 0) +
  (if L = 'U' then countClass umlautU w + countClass accentU w else 0) +
  (if L = 'S' then 2 * countClass eszett w else 0) +
  (if L = 'N' then countClass accentN w else 0) +
  (if L = 'I' then countClass accentI w else 0) +
  (if L = 'C' then countClass accentC w else 0)

/-- Final content of column `L` of the `letters` frame for word `w`:
base count plus all special additions targeting `L`. -/
def letterCount (w : Word) (L : Char) : Nat :=
  baseCount L w + specialAdd w L

/-- `-diff`: the one-glyph-two-letters expansions (three umlauts and the
sharp s) each decrement the `diff` counter once. -/
def expansionCount (w : Word) : Nat :=
  countClass umlautA w + countClass umlautO w + countClass umlautU w +
    countClass eszett w

/-- `letters.sum(axis=1)`: the row sum of the counts over the catalog
letter index. -/
def sumCounts (letterIndex : List Char) (w : Word) : Nat :=
  (letterIndex.map (letterCount w)).sum

/-- The per-word accounting test of `_extract_all_letters`:
`len(word) == letters.sum(axis=1) + diff` (with `diff = -expansions`). -/
def countsAddUp (letterIndex : List Char) (w : Word) : Bool :=
  (w.length : Int) == (sumCounts letterIndex w : Int) - (expansionCount w : Int)

/-- Error message of the accounting check (the offending index is appended
in the source; its rendering is irrelevant to every claim). -/
def accountingErrMsg : String :=
  "Not all counts add up, you may need to handle more special characters!"

/-- `_extract_all_letters`: counts every word of the batch and raises when
the accounting test fails for any word; on success the counts table is the
function `letterCount`. -/
def extractAllLetters (letterIndex : List Char) (ws : List Word) :
    Except String (Word → Char → Nat) :=
  if ws.all (countsAddUp letterIndex) then .ok letterCount
  else .error accountingErrMsg

/-- `word.replace("'", "")`: drop apostrophes. -/
def sanitize (w : Word) : Word :=
  w.filter (fun c => c ≠ apostrophe)

/-- One record of the word corpus: `(language, word)`. -/
structure CorpusEntry where
  language : String
  word : Word
deriving DecidableEq

/-- `drop_duplicates(_KEY_WORD)`: keep the first record for each word, in
corpus order. -/
def dedupByWord (seen : List Word) : List CorpusEntry → List CorpusEntry
  | [] => []
  | e :: rest =>
    if e.word ∈ seen then dedupByWord seen rest
    else e :: dedupByWord (e.word :: seen) rest

/-- `_get_all_words`: deduplicate the corpus by word, then keep only the
words whose sanitized length reaches the configured minimum. -/
def getAllWords (config : Config) (corpus : List CorpusEntry) :
    List CorpusEntry :=
  (dedupByWord [] corpus).filter
    (fun e => config.minimum_number_letters ≤ (sanitize e.word).length)

/-- A surviving row of the output frame: word (the index), language and
computed value. -/
structure ScoredWord where
  word : Word
  language : String
  value : Int
deriving DecidableEq

/-- `coin_counts_per_word.mul(coin_values, axis=1).sum(axis=1)`: the value
of one corpus entry (counts are taken on the sanitized word). -/
def scoreWord (coinValues : Char → Int) (letterIndex : List Char)
    (e : CorpusEntry) : ScoredWord :=
  ⟨e.word, e.language,
    (letterIndex.map
      (fun L => (letterCount (sanitize e.word) L : Int) * coinValues L)).sum⟩

/-- The conjunction of the three row filters of `_get_all_valid_words`:
availability (`coin_count_filter`), lower value bound
(`minimum_value_filter`) and upper value bound (`maximum_value_filter`). -/
def admits (config : Config) (wallet : Char → Nat) (letterIndex : List Char)
    (sw : ScoredWord) : Bool :=
  letterIndex.all (fun L => letterCount (sanitize sw.word) L ≤ wallet L) &&
  (config.value ≤ sw.value) &&
  (sw.value ≤ config.value + config.value_range)

/-- `_get_all_valid_words`: length-filter and deduplicate the corpus,
extract the letter counts (fail-fast on the accounting error), score every
word, apply the three row filters, and sort ascending by value. -/
def getAllValidWords (config : Config) (coinValues : Char → Int)
    (wallet : Char → Nat) (letterIndex : List Char)
    (corpus : List CorpusEntry) : Except String (List ScoredWord) :=
  match extractAllLetters letterIndex
      ((getAllWords config corpus).map (fun e => sanitize e.word)) with
  | .error msg => .error msg
  | .ok _ =>
    .ok (((((getAllWords config corpus).map
        (scoreWord coinValues letterIndex)).filter
          (admits config wallet letterIndex)).insertionSort
            (fun a b => a.value ≤ b.value)))

/-- One parsed line of `values.txt`: `(letter, name, value)`. -/
structure CatalogRecord where
  letter : Char
  name : String
  value : Int
deriving DecidableEq

/-- `_read_coin_values`: upper-case the letter of every parsed record. -/
def readCoinValues (records : List CatalogRecord) : List CatalogRecord :=
  records.map (fun r => ⟨r.letter.toUpper, r.name, r.value⟩)

/-- `coin_values.loc[letter].value`: catalog lookup by letter (first
matching row). -/
def catalogLookup (catalog : List CatalogRecord) (L : Char) : Option Int :=
  (catalog.find? (fun r => r.letter = L)).map (fun r => r.value)

/-- One parsed line of `coins.txt`: `count x name letter (value)`. -/
structure InventoryRecord where
  count : Nat
  name : String
  letter : Char
  value : Int
deriving DecidableEq

/-- One expanded coin row yielded by `_read_coin_inventory`. -/
structure Coin where
  name : String
  letter : Char
  value : ℚ
deriving DecidableEq

/-- Rendering of the Python float `int(values[3]) / count` inside the
mismatch f-string; exact for integral quotients, which are the only ones a
successful comparison against an integer catalog value can produce. -/
def pyFloatStr (q : ℚ) : String :=
  if q.den = 1 then toString q.num ++ ".0" else toString q

/-- The `RuntimeError` message of the catalog/inventory cross-check. -/
def mismatchMsg (found : ℚ) (expected : Int) : String :=
  "Your wallet contains values that do not match the coin value index!: Found "
    ++ pyFloatStr found ++ ", but expected " ++ toString expected ++ "."

/-- Python `ZeroDivisionError` on `int / 0`. -/
def divisionByZeroMsg : String := "division by zero"

/-- Pandas `KeyError` raised by `.loc` on a letter absent from the
catalog index. -/
def keyErrMsg : String := "KeyError"

/-- `_read_coin_inventory`: for each line compute the per-unit value
`value / count` (real division), look the letter up in the catalog, raise
on a value mismatch, and otherwise yield `count` identical coin rows. -/
def readCoinInventory (catalog : List CatalogRecord) :
    List InventoryRecord → Except String (List Coin)
  | [] => .ok []
  | r :: rest =>
    if r.count = 0 then .error divisionByZeroMsg
    else
      let value : ℚ := (r.value : ℚ) / (r.count : ℚ)
      match catalogLookup catalog r.letter.toUpper with
      | none => .error keyErrMsg
      | some expected =>
        if value = (expected : ℚ) then
          match readCoinInventory catalog rest with
          | .error msg => .error msg
          | .ok coins =>
            .ok (List.replicate r.count ⟨r.name, r.letter.toUpper, value⟩ ++ coins)
        else .error (mismatchMsg value expected)

/-- The insufficient-funds `RuntimeError` of `main` (the `%d` arguments are
never interpolated by the source either). -/
def insufficientMsg : String := "You do not have enough money (%d < %d)."

/-- `letters_in_wallet`: number of coins carrying each letter. -/
def lettersInWallet (coins : List Coin) (L : Char) : Nat :=
  (coins.filter (fun c => c.letter = L)).length

/-- `main`: build the catalog and its letter index, read and validate the
inventory, abort when the wallet total is below the target, then run the
word filter. -/
def mainRun (config : Config) (catalogRaw : List CatalogRecord)
    (inventory : List InventoryRecord) (corpus : List CorpusEntry) :
    Except String (List ScoredWord) :=
  match readCoinInventory (readCoinValues catalogRaw) inventory with
  | .error msg => .error msg
  | .ok coins =>
    if (coins.map (fun c => c.value)).sum < (config.value : ℚ) then
      .error insufficientMsg
    else
      getAllValidWords config
        (fun L => (catalogLookup (readCoinValues catalogRaw) L).getD 0)
        (lettersInWallet coins)
        ((readCoinValues catalogRaw).map (fun r => r.letter)) corpus

/-! ## Auxiliary character sets for the analysis -/

/-- The full upper-case alphabet; every catalog letter (parsed by
`([a-zA-Z])` and upper-cased) lies in this list. -/
def AZ : List Char :=
  ['A', 'B', 'C', 'D', 'E', 'F', 'G', 'H', 'I', 'J', 'K', 'L', 'M',
   'N', 'O', 'P', 'Q', 'R', 'S', 'T', 'U', 'V', 'W', 'X', 'Y', 'Z']

/-- Every glyph the special-handling block of `_extract_all_letters`
recognises. -/
def specialGlyphs : List Char :=
  umlautA ++ umlautO ++ umlautU ++ eszett ++ accentE ++ accentA ++ accentN ++
    accentI ++ accentO ++ accentC ++ accentU

/-- The catalog columns the special-handling block adds to. -/
def specialTargets : List Char := ['A', 'E', 'O', 'U', 'S', 'N', 'I', 'C']

/-- `c` is counted by the base rule for catalog letter `L`. -/
def matchesBase (c L : Char) : Bool := c = L.toLower || c = L.toUpper

/-- `c` is accounted for: either a case variant of a catalog letter or a
recognised special glyph. -/
def isKnown (letterIndex : List Char) (c : Char) : Bool :=
  letterIndex.any (matchesBase c) || c ∈ specialGlyphs

/-- Number of ignored (apostrophe) characters of a raw word. -/
def ignoredCount (w : Word) : Nat :=
  (w.filter (fun c => c = apostrophe)).length

/-- Modelled from the spec (§9 recommended accounting formula, quoted by
the claim): raw length after case-fold equals the sum of all letter counts
minus the number of one-to-two expansions minus the number of ignored
characters.  Case-folding does not change the length of a word, so the raw
length is `w.length`. -/
def specAccounting (letterIndex : List Char) (w : Word) : Prop :=
  (w.length : Int) =
    (sumCounts letterIndex w : Int) - expansionCount w - ignoredCount w

instance (letterIndex : List Char) (w : Word) :
    Decidable (specAccounting letterIndex w) := by
  unfold specAccounting; infer_instance

/-- Per-character contribution of the special-handling block, summed over
all of its target columns. -/
def specialTotal (c : Char) : Nat :=
  (countClass umlautA [c] + countClass accentA [c]) +
  (countClass umlautA [c] + countClass umlautO [c] + countClass umlautU [c] +
    countClass accentE [c]) +
  (countClass umlautO [c] + countClass accentO [c]) +
  (countClass umlautU [c] + countClass accentU [c]) +
  2 * countClass eszett [c] +
  countClass accentN [c] + countClass accentI [c] + countClass accentC [c]

/-! ## Counting lemmas -/

lemma countClass_append (cs : List Char) (v w : Word) :
    countClass cs (v ++ w) = countClass cs v + countClass cs w := by
  simp [countClass, List.filter_append]

lemma countClass_single (cs : List Char) (c : Char) :
    countClass cs [c] = if c ∈ cs then 1 else 0 := by
  simp only [countClass, List.filter]
  split <;> simp_all

lemma ite_add_distrib (P : Prop) [Decidable P] (a b : Nat) :
    (if P then a + b else 0) = (if P then a else 0) + (if P then b else 0) := by
  split <;> simp

lemma specialAdd_append (v w : Word) (L : Char) :
    specialAdd (v ++ w) L = specialAdd v L + specialAdd w L := by
  simp only [specialAdd, countClass_append, Nat.mul_add, ite_add_distrib]
  ring

lemma letterCount_append (v w : Word) (L : Char) :
    letterCount (v ++ w) L = letterCount v L + letterCount w L := by
  simp only [letterCount, baseCount, countClass_append, specialAdd_append]
  ring

lemma expansionCount_append (v w : Word) :
    expansionCount (v ++ w) = expansionCount v + expansionCount w := by
  simp only [expansionCount, countClass_append]
  ring

lemma letterCount_eq_sum (w : Word) (L : Char) :
    letterCount w L = (w.map (fun c => letterCount [c] L)).sum := by
  induction w with
  | nil => simp [letterCount, baseCount, specialAdd, countClass]
  | cons c w ih =>
    rw [List.map_cons, List.sum_cons, ← ih]
    exact letterCount_append [c] w L

lemma sum_map_add_distrib {α : Type} (l : List α) (f g : α → Nat) :
    (l.map (fun x => f x + g x)).sum = (l.map f).sum + (l.map g).sum := by
  induction l with
  | nil => rfl
  | cons a l ih => simp only [List.map_cons, List.sum_cons, ih]; ring

lemma sum_map_ite_eq (l : List Char) (a : Char) (k : Nat) :
    (l.map (fun x => if x = a then k else 0)).sum = k * l.count a := by
  induction l with
  | nil => simp
  | cons b l ih =>
    simp only [List.map_cons, List.sum_cons, ih, List.count_cons]
    by_cases h : b = a <;> simp [h, Nat.mul_add, Nat.add_comm]

lemma sumCounts_append (lI : List Char) (v w : Word) :
    sumCounts lI (v ++ w) = sumCounts lI v + sumCounts lI w := by
  simp only [sumCounts]
  rw [List.map_congr_left (fun L _ => letterCount_append v w L),
    sum_map_add_distrib]

lemma sum_map_ite_countP (l : List Char) (p : Char → Bool) :
    (l.map (fun x => if p x then 1 else 0)).sum = l.countP p := by
  induction l with
  | nil => simp
  | cons b l ih =>
    simp only [List.map_cons, List.sum_cons, ih, List.countP_cons]
    by_cases h : p b <;> simp [h, Nat.add_comm]

/-! ## Per-character analysis of `_extract_all_letters` -/

lemma special_no_base : ∀ s ∈ specialGlyphs, ∀ L ∈ AZ, matchesBase s L = false := by
  decide

lemma apostrophe_no_base : ∀ L ∈ AZ, matchesBase apostrophe L = false := by
  decide

lemma apostrophe_not_special : apostrophe ∉ specialGlyphs := by decide

lemma base_unique : ∀ L ∈ AZ, ∀ M ∈ AZ,
    matchesBase L.toLower M = (M == L) ∧ matchesBase L.toUpper M = (M == L) := by
  decide

lemma specialTotal_spec :
    ∀ s ∈ specialGlyphs, (specialTotal s : Int) - (expansionCount [s] : Int) = 1 := by
  decide

lemma specialTargets_mem :
    'A' ∈ specialTargets ∧ 'E' ∈ specialTargets ∧ 'O' ∈ specialTargets ∧
    'U' ∈ specialTargets ∧ 'S' ∈ specialTargets ∧ 'N' ∈ specialTargets ∧
    'I' ∈ specialTargets ∧ 'C' ∈ specialTargets := by decide

lemma sum_specialAdd (lI : List Char) (hnd : lI.Nodup)
    (hsp : ∀ t ∈ specialTargets, t ∈ lI) (c : Char) :
    (lI.map (specialAdd [c])).sum = specialTotal c := by
  have hcount : ∀ t ∈ specialTargets, lI.count t = 1 := fun t ht =>
    List.count_eq_one_of_mem hnd (hsp t ht)
  unfold specialAdd
  rw [sum_map_add_distrib, sum_map_add_distrib, sum_map_add_distrib,
    sum_map_add_distrib, sum_map_add_distrib, sum_map_add_distrib,
    sum_map_add_distrib]
  rw [sum_map_ite_eq, sum_map_ite_eq, sum_map_ite_eq, sum_map_ite_eq,
    sum_map_ite_eq, sum_map_ite_eq, sum_map_ite_eq, sum_map_ite_eq]
  rw [hcount 'A' specialTargets_mem.1, hcount 'E' specialTargets_mem.2.1,
    hcount 'O' specialTargets_mem.2.2.1, hcount 'U' specialTargets_mem.2.2.2.1,
    hcount 'S' specialTargets_mem.2.2.2.2.1,
    hcount 'N' specialTargets_mem.2.2.2.2.2.1,
    hcount 'I' specialTargets_mem.2.2.2.2.2.2.1,
    hcount 'C' specialTargets_mem.2.2.2.2.2.2.2]
  simp only [specialTotal, Nat.mul_one]

lemma specialTotal_eq_zero (c : Char) (h : c ∉ specialGlyphs) :
    specialTotal c = 0 ∧ expansionCount [c] = 0 := by
  simp only [specialGlyphs, List.mem_append, not_or] at h
  obtain ⟨⟨⟨⟨⟨⟨⟨⟨⟨⟨h1, h2⟩, h3⟩, h4⟩, h5⟩, h6⟩, h7⟩, h8⟩, h9⟩, h10⟩, h11⟩ := h
  simp [specialTotal, expansionCount, countClass_single, h1, h2, h3, h4, h5,
    h6, h7, h8, h9, h10, h11]

lemma baseCount_single (L c : Char) :
    baseCount L [c] = if matchesBase c L then 1 else 0 := by
  rw [baseCount, countClass_single]
  simp [matchesBase]

lemma letterCount_single_eq (c L : Char) :
    letterCount [c] L = (if matchesBase c L then 1 else 0) + specialAdd [c] L := by
  rw [letterCount, baseCount_single]

lemma sumCounts_single (lI : List Char) (c : Char) :
    sumCounts lI [c] = lI.countP (matchesBase c) + (lI.map (specialAdd [c])).sum := by
  simp only [sumCounts]
  have h : lI.map (letterCount [c]) =
      lI.map (fun L => (if matchesBase c L then 1 else 0) + specialAdd [c] L) :=
    List.map_congr_left (fun L _ => letterCount_single_eq c L)
  rw [h, sum_map_add_distrib, sum_map_ite_countP]

/-- The row sum minus the expansion correction is exactly the number of
accounted-for characters: each known character nets `1`, every other
character nets `0`. -/
lemma perCharTotal (lI : List Char) (hnd : lI.Nodup) (hup : ∀ L ∈ lI, L ∈ AZ)
    (hsp : ∀ t ∈ specialTargets, t ∈ lI) (c : Char) :
    (sumCounts lI [c] : Int) - (expansionCount [c] : Int) =
      if isKnown lI c then 1 else 0 := by
  rw [sumCounts_single, sum_specialAdd lI hnd hsp c]
  by_cases hc : c ∈ specialGlyphs
  · have hbase : lI.countP (matchesBase c) = 0 :=
      List.countP_eq_zero.2 (fun L hL => by
        simp [special_no_base c hc L (hup L hL)])
    have hknown : isKnown lI c = true := by
      simp [isKnown, hc]
    rw [hbase, if_pos hknown]
    have hval := specialTotal_spec c hc
    push_cast
    push_cast at hval
    omega
  · obtain ⟨hz1, hz2⟩ := specialTotal_eq_zero c hc
    rw [hz1, hz2]
    by_cases hm : lI.any (matchesBase c)
    · obtain ⟨L0, hL0mem, hL0⟩ := List.any_eq_true.1 hm
      have hL0AZ := hup L0 hL0mem
      have hcases : c = L0.toLower ∨ c = L0.toUpper := by
        simpa [matchesBase] using hL0
      have hcong : ∀ x ∈ lI, matchesBase c x = (x == L0) := by
        intro x hx
        rcases hcases with h | h <;> rw [h]
        · exact (base_unique L0 hL0AZ x (hup x hx)).1
        · exact (base_unique L0 hL0AZ x (hup x hx)).2
      have : lI.countP (matchesBase c) = lI.count L0 := by
        rw [List.count]
        exact List.countP_congr (fun x hx => by rw [hcong x hx])
      rw [this, List.count_eq_one_of_mem hnd hL0mem]
      have hknown : isKnown lI c = true := by
        unfold isKnown
        rw [hm, Bool.true_or]
      rw [if_pos hknown]
      simp
    · have hm' : lI.any (matchesBase c) = false := by simpa using hm
      have hbase : lI.countP (matchesBase c) = 0 :=
        List.countP_eq_zero.2 (fun L hL => by
          have := List.any_eq_false.1 hm' L hL
          simp [this])
      have hknown : ¬ isKnown lI c = true := by
        simp only [isKnown, Bool.or_eq_true, not_or]
        exact ⟨by simp [hm'], by simp [hc]⟩
      rw [hbase, if_neg hknown]
      simp

/-! ## The accounting check characterised -/

lemma sum_map_sub_distrib {α : Type} (l : List α) (f g : α → Int) :
    (l.map (fun x => f x - g x)).sum = (l.map f).sum - (l.map g).sum := by
  induction l with
  | nil => simp
  | cons a l ih => simp only [List.map_cons, List.sum_cons, ih]; ring

lemma letterCount_nil (L : Char) : letterCount [] L = 0 := by
  simp [letterCount, baseCount, specialAdd, countClass]

lemma sumCounts_sub_expansion (lI : List Char) (hnd : lI.Nodup)
    (hup : ∀ L ∈ lI, L ∈ AZ) (hsp : ∀ t ∈ specialTargets, t ∈ lI) (w : Word) :
    (sumCounts lI w : Int) - (expansionCount w : Int) =
      (w.map (fun c => if isKnown lI c then (1 : Int) else 0)).sum := by
  induction w with
  | nil =>
    have h0 : sumCounts lI [] = 0 := by
      simp only [sumCounts]
      rw [List.map_congr_left (fun L _ => letterCount_nil L)]
      simp
    simp [h0, expansionCount, countClass]
  | cons c w ih =>
    have hc : sumCounts lI (c :: w) = sumCounts lI [c] + sumCounts lI w :=
      sumCounts_append lI [c] w
    have he : expansionCount (c :: w) = expansionCount [c] + expansionCount w :=
      expansionCount_append [c] w
    rw [hc, he, List.map_cons, List.sum_cons, ← ih,
      ← perCharTotal lI hnd hup hsp c]
    push_cast
    ring

lemma sum_le_length (w : Word) (t : Char → Int) (hb : ∀ c, t c ≤ 1) :
    (w.map t).sum ≤ (w.length : Int) := by
  induction w with
  | nil => simp
  | cons c w ih =>
    simp only [List.map_cons, List.sum_cons, List.length_cons]
    have := hb c
    push_cast
    omega

lemma length_eq_sum_iff (w : Word) (t : Char → Int) (hb : ∀ c, t c ≤ 1) :
    ((w.length : Int) = (w.map t).sum) ↔ ∀ c ∈ w, t c = 1 := by
  induction w with
  | nil => simp
  | cons c w ih =>
    simp only [List.map_cons, List.sum_cons, List.length_cons, List.mem_cons]
    have h1 := hb c
    have h2 := sum_le_length w t hb
    push_cast
    constructor
    · intro h
      have ht : t c = 1 := by omega
      have hw : (w.length : Int) = (w.map t).sum := by omega
      intro d hd
      rcases hd with rfl | hd
      · exact ht
      · exact ih.1 hw d hd
    · intro h
      have ht : t c = 1 := h c (Or.inl rfl)
      have hw : (w.length : Int) = (w.map t).sum :=
        ih.2 (fun d hd => h d (Or.inr hd))
      omega

/-- The accounting test of the source passes exactly when every character
of the word is accounted for. -/
lemma countsAddUp_iff (lI : List Char) (hnd : lI.Nodup)
    (hup : ∀ L ∈ lI, L ∈ AZ) (hsp : ∀ t ∈ specialTargets, t ∈ lI) (w : Word) :
    countsAddUp lI w = true ↔ ∀ c ∈ w, isKnown lI c = true := by
  unfold countsAddUp
  rw [beq_iff_eq, sumCounts_sub_expansion lI hnd hup hsp w,
    length_eq_sum_iff w _ (fun c => by by_cases h : isKnown lI c <;> simp [h])]
  refine forall_congr' (fun c => forall_congr' (fun hc => ?_))
  by_cases h : isKnown lI c <;> simp [h]

lemma ignoredCount_cons (c : Char) (w : Word) :
    ignoredCount (c :: w) = (if c = apostrophe then 1 else 0) + ignoredCount w := by
  simp only [ignoredCount, List.filter_cons]
  by_cases h : c = apostrophe <;> simp [h, Nat.add_comm]

lemma ignoredCount_eq_sum (w : Word) :
    (ignoredCount w : Int) =
      (w.map (fun c => if c = apostrophe then (1 : Int) else 0)).sum := by
  induction w with
  | nil => simp [ignoredCount]
  | cons c w ih =>
    rw [ignoredCount_cons, List.map_cons, List.sum_cons, ← ih]
    by_cases h : c = apostrophe <;> simp [h]

lemma isKnown_apostrophe (lI : List Char) (hup : ∀ L ∈ lI, L ∈ AZ) :
    isKnown lI apostrophe = false := by
  simp only [isKnown, Bool.or_eq_false_iff]
  constructor
  · rw [List.any_eq_false]
    intro L hL
    simp [apostrophe_no_base L (hup L hL)]
  · simp [apostrophe_not_special]

/-- The spec's recommended accounting formula holds exactly when every
character of the word is accounted for — the same condition the source's
check tests. -/
lemma specAccounting_iff (lI : List Char) (hnd : lI.Nodup)
    (hup : ∀ L ∈ lI, L ∈ AZ) (hsp : ∀ t ∈ specialTargets, t ∈ lI) (w : Word) :
    specAccounting lI w ↔ ∀ c ∈ w, isKnown lI c = true := by
  unfold specAccounting
  have hb : ∀ c, ((if isKnown lI c then (1 : Int) else 0) -
      (if c = apostrophe then 1 else 0)) ≤ 1 := fun c => by
    by_cases h2 : c = apostrophe
    · subst h2
      rw [isKnown_apostrophe lI hup]
      simp
    · by_cases h : isKnown lI c <;> simp [h, h2]
  have hrw : (sumCounts lI w : Int) - expansionCount w - ignoredCount w =
      (w.map (fun c => (if isKnown lI c then (1 : Int) else 0) -
        (if c = apostrophe then 1 else 0))).sum := by
    rw [sum_map_sub_distrib, ← sumCounts_sub_expansion lI hnd hup hsp w,
      ← ignoredCount_eq_sum]
  rw [hrw, length_eq_sum_iff w _ hb]
  refine forall_congr' (fun c => forall_congr' (fun hc => ?_))
  by_cases h2 : c = apostrophe
  · subst h2
    rw [isKnown_apostrophe lI hup]
    simp
  · by_cases h : isKnown lI c <;> simp [h, h2]

/-- `specAccounting` and the source's accounting test agree word by
word. -/
lemma specAccounting_iff_countsAddUp (lI : List Char) (hnd : lI.Nodup)
    (hup : ∀ L ∈ lI, L ∈ AZ) (hsp : ∀ t ∈ specialTargets, t ∈ lI) (w : Word) :
    specAccounting lI w ↔ countsAddUp lI w = true := by
  rw [specAccounting_iff lI hnd hup hsp w, countsAddUp_iff lI hnd hup hsp w]

/-! ## Pipeline lemmas -/

lemma getAllValidWords_ok_elim {config : Config} {coinValues : Char → Int}
    {wallet : Char → Nat} {lI : List Char} {corpus : List CorpusEntry}
    {out : List ScoredWord}
    (hout : getAllValidWords config coinValues wallet lI corpus = .ok out) :
    out = ((((getAllWords config corpus).map (scoreWord coinValues lI)).filter
      (admits config wallet lI)).insertionSort (fun a b => a.value ≤ b.value)) := by
  unfold getAllValidWords at hout
  split at hout
  · simp at hout
  · exact (Except.ok.inj hout).symm

lemma mem_valid_output {config : Config} {coinValues : Char → Int}
    {wallet : Char → Nat} {lI : List Char} {corpus : List CorpusEntry}
    {out : List ScoredWord}
    (hout : getAllValidWords config coinValues wallet lI corpus = .ok out)
    {sw : ScoredWord} (hsw : sw ∈ out) :
    (∃ e ∈ getAllWords config corpus, sw = scoreWord coinValues lI e) ∧
      admits config wallet lI sw = true := by
  rw [getAllValidWords_ok_elim hout, List.mem_insertionSort] at hsw
  have h2 := List.mem_filter.1 hsw
  obtain ⟨e, he, hsw'⟩ := List.mem_map.1 h2.1
  exact ⟨⟨e, he, hsw'.symm⟩, h2.2⟩

lemma admits_iff {config : Config} {wallet : Char → Nat} {lI : List Char}
    {sw : ScoredWord} :
    admits config wallet lI sw = true ↔
      (∀ L ∈ lI, letterCount (sanitize sw.word) L ≤ wallet L) ∧
      config.value ≤ sw.value ∧ sw.value ≤ config.value + config.value_range := by
  simp [admits, List.all_eq_true, and_assoc]

lemma mem_getAllWords_length {config : Config} {corpus : List CorpusEntry}
    {e : CorpusEntry} (he : e ∈ getAllWords config corpus) :
    config.minimum_number_letters ≤ (sanitize e.word).length := by
  have h := List.mem_filter.1 he
  simpa using h.2

/-! ## Inventory construction lemmas -/

lemma readCoinInventory_cons (cat : List CatalogRecord) (r : InventoryRecord)
    (rest : List InventoryRecord) :
    readCoinInventory cat (r :: rest) =
      if r.count = 0 then .error divisionByZeroMsg
      else
        match catalogLookup cat r.letter.toUpper with
        | none => .error keyErrMsg
        | some expected =>
          if (r.value : ℚ) / (r.count : ℚ) = (expected : ℚ) then
            match readCoinInventory cat rest with
            | .error msg => .error msg
            | .ok coins => .ok (List.replicate r.count
                ⟨r.name, r.letter.toUpper, (r.value : ℚ) / (r.count : ℚ)⟩ ++ coins)
          else .error (mismatchMsg ((r.value : ℚ) / (r.count : ℚ)) expected) := by
  rfl

lemma readCoinInventory_cons_some (cat : List CatalogRecord)
    (r : InventoryRecord) (rest : List InventoryRecord) (v : Int)
    (hc0 : ¬ r.count = 0)
    (hv : catalogLookup cat r.letter.toUpper = some v) :
    readCoinInventory cat (r :: rest) =
      if (r.value : ℚ) / (r.count : ℚ) = (v : ℚ) then
        match readCoinInventory cat rest with
        | .error msg => .error msg
        | .ok coins => .ok (List.replicate r.count
            ⟨r.name, r.letter.toUpper, (r.value : ℚ) / (r.count : ℚ)⟩ ++ coins)
      else .error (mismatchMsg ((r.value : ℚ) / (r.count : ℚ)) v) := by
  rw [readCoinInventory_cons, if_neg hc0, hv]

lemma mainRun_inventory_error (config : Config)
    (catalogRaw : List CatalogRecord) (inv : List InventoryRecord)
    (corpus : List CorpusEntry) (msg : String)
    (herr : readCoinInventory (readCoinValues catalogRaw) inv = .error msg) :
    mainRun config catalogRaw inv corpus = .error msg := by
  unfold mainRun
  rw [herr]

lemma mainRun_inventory_ok (config : Config)
    (catalogRaw : List CatalogRecord) (inv : List InventoryRecord)
    (corpus : List CorpusEntry) (coins : List Coin)
    (hok : readCoinInventory (readCoinValues catalogRaw) inv = .ok coins) :
    mainRun config catalogRaw inv corpus =
      if (coins.map (fun c => c.value)).sum < (config.value : ℚ) then
        .error insufficientMsg
      else getAllValidWords config
        (fun L => (catalogLookup (readCoinValues catalogRaw) L).getD 0)
        (lettersInWallet coins)
        ((readCoinValues catalogRaw).map (fun r => r.letter)) corpus := by
  unfold mainRun
  rw [hok]

/-- Exact rational division against an integer, the way the per-unit value
is compared with the catalog value. -/
lemma div_eq_int_iff (a : Int) (n : Nat) (v : Int) (hn : 0 < n) :
    (a : ℚ) / (n : ℚ) = (v : ℚ) ↔ a = (n : Int) * v := by
  have hn0 : (n : ℚ) ≠ 0 := by
    exact_mod_cast hn.ne'
  rw [div_eq_iff hn0]
  constructor
  · intro h
    have h2 : (a : ℚ) = (((n : Int) * v : Int) : ℚ) := by
      rw [h]
      push_cast
      ring
    exact_mod_cast h2
  · intro h
    rw [h]
    push_cast
    ring

lemma readCoinInventory_error_iff (cat : List CatalogRecord)
    (inv : List InventoryRecord)
    (hc : ∀ r ∈ inv, 0 < r.count)
    (hl : ∀ r ∈ inv, ∃ v, catalogLookup cat r.letter.toUpper = some v) :
    (∃ msg, readCoinInventory cat inv = .error msg) ↔
      ∃ r ∈ inv, ∃ v, catalogLookup cat r.letter.toUpper = some v ∧
        r.value ≠ (r.count : Int) * v := by
  induction inv with
  | nil =>
    constructor
    · rintro ⟨msg, h⟩
      simp [readCoinInventory] at h
    · rintro ⟨r, hr, _⟩
      simp at hr
  | cons r rest ih =>
    have hr0 : 0 < r.count := hc r (List.mem_cons_self r rest)
    have hc0 : ¬ r.count = 0 := by omega
    obtain ⟨v, hv⟩ := hl r (List.mem_cons_self r rest)
    have ih2 := ih (fun x hx => hc x (List.mem_cons_of_mem r hx))
      (fun x hx => hl x (List.mem_cons_of_mem r hx))
    rw [readCoinInventory_cons_some cat r rest v hc0 hv]
    by_cases hm : (r.value : ℚ) / (r.count : ℚ) = (v : ℚ)
    · rw [if_pos hm]
      have hmv : r.value = (r.count : Int) * v := (div_eq_int_iff _ _ _ hr0).1 hm
      constructor
      · rintro ⟨msg, hmsg⟩
        cases hrec : readCoinInventory cat rest with
        | error msg2 =>
          obtain ⟨r', hr', hrest⟩ := ih2.1 ⟨msg2, hrec⟩
          exact ⟨r', List.mem_cons_of_mem r hr', hrest⟩
        | ok coins =>
          rw [hrec] at hmsg
          simp at hmsg
      · rintro ⟨r', hr', v', hv', hne⟩
        rcases List.mem_cons.1 hr' with h | hr'
        · subst h
          rw [hv] at hv'
          have hvv : v' = v := (Option.some.inj hv').symm
          rw [hvv] at hne
          exact absurd hmv hne
        · obtain ⟨msg2, hmsg2⟩ := ih2.2 ⟨r', hr', v', hv', hne⟩
          rw [hmsg2]
          exact ⟨msg2, rfl⟩
    · rw [if_neg hm]
      constructor
      · intro _
        refine ⟨r, List.mem_cons_self r rest, v, hv, ?_⟩
        intro heq
        exact hm ((div_eq_int_iff _ _ _ hr0).2 heq)
      · intro _
        exact ⟨_, rfl⟩

lemma readCoinInventory_ok_of_match (cat : List CatalogRecord)
    (inv : List InventoryRecord)
    (h : ∀ r ∈ inv, ∃ v, catalogLookup cat r.letter.toUpper = some v ∧
      0 < r.count ∧ (r.value : ℚ) / (r.count : ℚ) = (v : ℚ)) :
    ∃ coins, readCoinInventory cat inv = .ok coins := by
  induction inv with
  | nil => exact ⟨[], rfl⟩
  | cons r rest ih =>
    obtain ⟨v, hv, hcpos, hm⟩ := h r (List.mem_cons_self r rest)
    obtain ⟨coins, hcoins⟩ := ih (fun x hx => h x (List.mem_cons_of_mem r hx))
    rw [readCoinInventory_cons_some cat r rest v (by omega) hv, if_pos hm,
      hcoins]
    exact ⟨_, rfl⟩

lemma mismatchMsg_toList (f : ℚ) (v : Int) :
    (mismatchMsg f v).toList =
      ("Your wallet contains values that do not match the coin value index!: Found ").toList
      ++ (pyFloatStr f).toList ++ (", but expected ").toList
      ++ (toString v).toList ++ (".").toList := by
  simp [mismatchMsg, String.toList, String.data_append]

/-! ## Claim theorems -/

/-- C1: for every word in the admitted output set, the computed value lies
in the value band: `target ≤ value ≤ target + tolerance`.  The tolerance
(`value_range`) is always configured (it is an integer field with default
5), so the upper bound always applies and the unbounded branch of the
claim is vacuous. -/
theorem admitted_value_in_band (config : Config) (coinValues : Char → Int)
    (wallet : Char → Nat) (lI : List Char) (corpus : List CorpusEntry)
    (out : List ScoredWord) (sw : ScoredWord)
    (hout : getAllValidWords config coinValues wallet lI corpus = .ok out)
    (hsw : sw ∈ out) :
    config.value ≤ sw.value ∧ sw.value ≤ config.value + config.value_range := by
  have h := (mem_valid_output hout hsw).2
  rw [admits_iff] at h
  exact ⟨h.2.1, h.2.2⟩

/-- C1 witness: a concrete run admitting the word BAR with value 4, target
4 and tolerance 0. -/
theorem admitted_value_in_band_witness :
    (Config.mk 4 0 3).value ≤
        (ScoredWord.mk ['B', 'A', 'R'] "american-english" 4).value ∧
      (ScoredWord.mk ['B', 'A', 'R'] "american-english" 4).value ≤
        (Config.mk 4 0 3).value + (Config.mk 4 0 3).value_range :=
  admitted_value_in_band ⟨4, 0, 3⟩ (fun L => if L = 'B' then 2 else 1)
    (fun _ => 3) ['A', 'B', 'R'] [⟨"american-english", ['B', 'A', 'R']⟩]
    [⟨['B', 'A', 'R'], "american-english", 4⟩]
    ⟨['B', 'A', 'R'], "american-english", 4⟩ (by decide) (by decide)

/-- C2: every admitted word's letter requirement is within the inventory,
letter by letter, and a word exceeding the inventory on some letter is
excluded from the output of a (non-fatally) succeeding run. -/
theorem admitted_within_inventory (config : Config) (coinValues : Char → Int)
    (wallet : Char → Nat) (lI : List Char) (corpus : List CorpusEntry)
    (out : List ScoredWord)
    (hout : getAllValidWords config coinValues wallet lI corpus = .ok out) :
    (∀ sw ∈ out, ∀ L ∈ lI, letterCount (sanitize sw.word) L ≤ wallet L) ∧
    (∀ e ∈ getAllWords config corpus,
      (∃ L ∈ lI, wallet L < letterCount (sanitize e.word) L) →
        ∀ sw ∈ out, sw.word ≠ e.word) := by
  constructor
  · intro sw hsw L hL
    have h := (mem_valid_output hout hsw).2
    rw [admits_iff] at h
    exact h.1 L hL
  · rintro e _ ⟨L, hL, hgt⟩ sw hsw heq
    have h := (mem_valid_output hout hsw).2
    rw [admits_iff] at h
    have hle := h.1 L hL
    rw [heq] at hle
    omega

/-- C2 witness: the same concrete run; the inventory bound holds for the
admitted word BAR. -/
theorem admitted_within_inventory_witness :
    (∀ sw ∈ ([⟨['B', 'A', 'R'], "american-english", 4⟩] : List ScoredWord),
      ∀ L ∈ (['A', 'B', 'R'] : List Char),
        letterCount (sanitize sw.word) L ≤ 3) ∧
    (∀ e ∈ getAllWords ⟨4, 0, 3⟩ [⟨"american-english", ['B', 'A', 'R']⟩],
      (∃ L ∈ (['A', 'B', 'R'] : List Char),
        3 < letterCount (sanitize e.word) L) →
      ∀ sw ∈ ([⟨['B', 'A', 'R'], "american-english", 4⟩] : List ScoredWord),
        sw.word ≠ e.word) :=
  admitted_within_inventory ⟨4, 0, 3⟩ (fun L => if L = 'B' then 2 else 1)
    (fun _ => 3) ['A', 'B', 'R'] [⟨"american-english", ['B', 'A', 'R']⟩]
    [⟨['B', 'A', 'R'], "american-english", 4⟩] (by decide)

/-- C9: a corpus word whose sanitized length (apostrophes excluded) is
below the configured minimum is rejected before normalization; every word
surviving the length filter, and every admitted word, has sanitized length
at least the minimum. -/
theorem length_filter_correct (config : Config) (corpus : List CorpusEntry)
    (coinValues : Char → Int) (wallet : Char → Nat) (lI : List Char)
    (out : List ScoredWord)
    (hout : getAllValidWords config coinValues wallet lI corpus = .ok out) :
    (∀ e ∈ corpus, (sanitize e.word).length < config.minimum_number_letters →
      e ∉ getAllWords config corpus) ∧
    (∀ e ∈ getAllWords config corpus,
      config.minimum_number_letters ≤ (sanitize e.word).length) ∧
    (∀ sw ∈ out, config.minimum_number_letters ≤ (sanitize sw.word).length) := by
  refine ⟨?_, ?_, ?_⟩
  · intro e _ hlt hmem
    have := mem_getAllWords_length hmem
    omega
  · intro e he
    exact mem_getAllWords_length he
  · intro sw hsw
    obtain ⟨⟨e, he, rfl⟩, _⟩ := mem_valid_output hout hsw
    exact mem_getAllWords_length he

/-- C9 witness: the concrete BAR run with minimum length 3. -/
theorem length_filter_correct_witness :
    (∀ e ∈ ([⟨"american-english", ['B', 'A', 'R']⟩] : List CorpusEntry),
      (sanitize e.word).length < 3 →
      e ∉ getAllWords ⟨4, 0, 3⟩ [⟨"american-english", ['B', 'A', 'R']⟩]) ∧
    (∀ e ∈ getAllWords ⟨4, 0, 3⟩ [⟨"american-english", ['B', 'A', 'R']⟩],
      3 ≤ (sanitize e.word).length) ∧
    (∀ sw ∈ ([⟨['B', 'A', 'R'], "american-english", 4⟩] : List ScoredWord),
      3 ≤ (sanitize sw.word).length) :=
  length_filter_correct ⟨4, 0, 3⟩ [⟨"american-english", ['B', 'A', 'R']⟩]
    (fun L => if L = 'B' then 2 else 1) (fun _ => 3) ['A', 'B', 'R']
    [⟨['B', 'A', 'R'], "american-english", 4⟩] (by decide)

/-- C6: the computed value of any word is the sum, over the catalog
letters, of its letter count times the catalog value, in exact integer
arithmetic; with catalog A=1, B=2, R=1 the word BAR has counts 1, 1, 1 and
value 4. -/
theorem word_value_linear (coinValues : Char → Int) (lI : List Char)
    (hnd : lI.Nodup) (e : CorpusEntry) :
    ((scoreWord coinValues lI e).value =
      ∑ L in lI.toFinset, (letterCount (sanitize e.word) L : Int) * coinValues L) ∧
    letterCount (sanitize (['B', 'A', 'R'] : Word)) 'A' = 1 ∧
    letterCount (sanitize (['B', 'A', 'R'] : Word)) 'B' = 1 ∧
    letterCount (sanitize (['B', 'A', 'R'] : Word)) 'R' = 1 ∧
    (scoreWord
      (fun L => if L = 'A' then 1 else if L = 'B' then 2 else
        if L = 'R' then 1 else 0) ['A', 'B', 'R']
      ⟨"example", ['B', 'A', 'R']⟩).value = 4 := by
  refine ⟨?_, by decide, by decide, by decide, by decide⟩
  exact (List.sum_toFinset _ hnd).symm

/-- C6 witness at a concrete catalog and word. -/
theorem word_value_linear_witness :
    ((scoreWord (fun _ => 1) ['A'] ⟨"x", ['A']⟩).value =
      ∑ L in (['A'] : List Char).toFinset,
        (letterCount (sanitize (⟨"x", ['A']⟩ : CorpusEntry).word) L : Int) * 1) ∧
    letterCount (sanitize (['B', 'A', 'R'] : Word)) 'A' = 1 ∧
    letterCount (sanitize (['B', 'A', 'R'] : Word)) 'B' = 1 ∧
    letterCount (sanitize (['B', 'A', 'R'] : Word)) 'R' = 1 ∧
    (scoreWord
      (fun L => if L = 'A' then 1 else if L = 'B' then 2 else
        if L = 'R' then 1 else 0) ['A', 'B', 'R']
      ⟨"example", ['B', 'A', 'R']⟩).value = 4 :=
  word_value_linear (fun _ => 1) ['A'] (by decide) ⟨"x", ['A']⟩

/-- C3: the batch normalizer raises its accounting error exactly when some
word of the batch violates the accounting formula (stated as the spec
writes it, with the ignored-character term); a nonempty word made only of
characters outside the letter domain and outside the glyph table always
trips it; and the error aborts the whole filtering run rather than
skipping the word. -/
theorem accounting_error_iff (lI : List Char) (ws : List Word)
    (hnd : lI.Nodup) (hup : ∀ L ∈ lI, L ∈ AZ)
    (hsp : ∀ t ∈ specialTargets, t ∈ lI) :
    ((∃ msg, extractAllLetters lI ws = .error msg) ↔
      ∃ w ∈ ws, ¬ specAccounting lI w) ∧
    (∀ w ∈ ws, w ≠ [] → (∀ c ∈ w, isKnown lI c = false) →
      ∃ msg, extractAllLetters lI ws = .error msg) ∧
    (∀ (config : Config) (coinValues : Char → Int) (wallet : Char → Nat)
      (corpus : List CorpusEntry) (msg : String),
      extractAllLetters lI ((getAllWords config corpus).map
        (fun e => sanitize e.word)) = .error msg →
      getAllValidWords config coinValues wallet lI corpus = .error msg) := by
  have key : ∀ w, countsAddUp lI w = true ↔ specAccounting lI w := fun w =>
    (specAccounting_iff_countsAddUp lI hnd hup hsp w).symm
  refine ⟨?_, ?_, ?_⟩
  · unfold extractAllLetters
    by_cases hall : ws.all (countsAddUp lI) = true
    · rw [if_pos hall]
      constructor
      · rintro ⟨msg, hmsg⟩
        simp at hmsg
      · rintro ⟨w, hw, hns⟩
        exact absurd ((key w).1 (List.all_eq_true.1 hall w hw)) hns
    · rw [if_neg hall]
      refine ⟨fun _ => ?_, fun _ => ⟨accountingErrMsg, rfl⟩⟩
      have hex : ∃ w ∈ ws, ¬ countsAddUp lI w = true := by
        by_contra hcon
        push_neg at hcon
        exact hall (List.all_eq_true.2 (fun w hw => hcon w hw))
      obtain ⟨w, hw, hnc⟩ := hex
      exact ⟨w, hw, fun hs => hnc ((key w).2 hs)⟩
  · intro w hw hne hunk
    have hnc : ¬ countsAddUp lI w = true := by
      rw [countsAddUp_iff lI hnd hup hsp w]
      obtain ⟨c, hc⟩ := List.exists_mem_of_ne_nil w hne
      intro hallk
      have h1 := hallk c hc
      rw [hunk c hc] at h1
      exact absurd h1 (by simp)
    have hall : ¬ ws.all (countsAddUp lI) = true := fun h =>
      hnc (List.all_eq_true.1 h w hw)
    unfold extractAllLetters
    rw [if_neg hall]
    exact ⟨accountingErrMsg, rfl⟩
  · intro config coinValues wallet corpus msg hext
    unfold getAllValidWords
    rw [hext]

/-- C3 witness: the full alphabet as catalog domain and a one-word
batch. -/
theorem accounting_error_iff_witness :
    ((∃ msg, extractAllLetters AZ [['B', 'A', 'R']] = .error msg) ↔
      ∃ w ∈ [['B', 'A', 'R']], ¬ specAccounting AZ w) ∧
    (∀ w ∈ [['B', 'A', 'R']], w ≠ [] → (∀ c ∈ w, isKnown AZ c = false) →
      ∃ msg, extractAllLetters AZ [['B', 'A', 'R']] = .error msg) ∧
    (∀ (config : Config) (coinValues : Char → Int) (wallet : Char → Nat)
      (corpus : List CorpusEntry) (msg : String),
      extractAllLetters AZ ((getAllWords config corpus).map
        (fun e => sanitize e.word)) = .error msg →
      getAllValidWords config coinValues wallet AZ corpus = .error msg) :=
  accounting_error_iff AZ [['B', 'A', 'R']] (by decide) (by decide) (by decide)

/-- C4 counterexample: the grave-accented U glyph is an accented (grave)
form of the letter U, so the claim requires it to contribute exactly 1 to
U; the source's table does not recognise it — it contributes 0 to U and to
every catalog letter, and a batch containing it aborts with the accounting
error instead. -/
theorem unsupported_accent_cex :
    letterCount ['ù'] 'U' = 0 ∧
    (∀ M ∈ AZ, letterCount ['ù'] M = 0) ∧
    extractAllLetters AZ [['ù']] = .error accountingErrMsg := by
  refine ⟨by decide, by decide, ?_⟩
  rfl

lemma glyph_facts_umlautA : ∀ c ∈ umlautA,
    letterCount [c] 'A' = 1 ∧ letterCount [c] 'E' = 1 ∧
    ∀ M ∈ AZ, M ≠ 'A' → M ≠ 'E' → letterCount [c] M = 0 := by decide

lemma glyph_facts_umlautO : ∀ c ∈ umlautO,
    letterCount [c] 'O' = 1 ∧ letterCount [c] 'E' = 1 ∧
    ∀ M ∈ AZ, M ≠ 'O' → M ≠ 'E' → letterCount [c] M = 0 := by decide

lemma glyph_facts_umlautU : ∀ c ∈ umlautU,
    letterCount [c] 'U' = 1 ∧ letterCount [c] 'E' = 1 ∧
    ∀ M ∈ AZ, M ≠ 'U' → M ≠ 'E' → letterCount [c] M = 0 := by decide

lemma glyph_facts_eszett : ∀ c ∈ eszett, letterCount [c] 'S' = 2 ∧
    ∀ M ∈ AZ, M ≠ 'S' → letterCount [c] M = 0 := by decide

lemma glyph_facts_accentE : ∀ c ∈ accentE, letterCount [c] 'E' = 1 ∧
    ∀ M ∈ AZ, M ≠ 'E' → letterCount [c] M = 0 := by decide

lemma glyph_facts_accentA : ∀ c ∈ accentA, letterCount [c] 'A' = 1 ∧
    ∀ M ∈ AZ, M ≠ 'A' → letterCount [c] M = 0 := by decide

lemma glyph_facts_accentN : ∀ c ∈ accentN, letterCount [c] 'N' = 1 ∧
    ∀ M ∈ AZ, M ≠ 'N' → letterCount [c] M = 0 := by decide

lemma glyph_facts_accentI : ∀ c ∈ accentI, letterCount [c] 'I' = 1 ∧
    ∀ M ∈ AZ, M ≠ 'I' → letterCount [c] M = 0 := by decide

lemma glyph_facts_accentO : ∀ c ∈ accentO, letterCount [c] 'O' = 1 ∧
    ∀ M ∈ AZ, M ≠ 'O' → letterCount [c] M = 0 := by decide

lemma glyph_facts_accentC : ∀ c ∈ accentC, letterCount [c] 'C' = 1 ∧
    ∀ M ∈ AZ, M ≠ 'C' → letterCount [c] M = 0 := by decide

lemma glyph_facts_accentU : ∀ c ∈ accentU, letterCount [c] 'U' = 1 ∧
    ∀ M ∈ AZ, M ≠ 'U' → letterCount [c] M = 0 := by decide

lemma glyph_facts_upper : ∀ c ∈ AZ, ∀ M ∈ AZ,
    letterCount [c] M = if c = M then 1 else 0 := by decide

lemma glyph_facts_lower : ∀ c ∈ AZ, ∀ M ∈ AZ,
    letterCount [c.toLower] M = if c = M then 1 else 0 := by decide

lemma glyph_facts_unrecognised :
    ∀ c ∈ (['ì', 'î', 'ò', 'ù', 'ú', 'ã', 'õ', 'ë'] : List Char),
    ∀ M ∈ AZ, letterCount [c] M = 0 := by decide

/-- C4 amended: the counting of a word decomposes into per-character
contributions, and the table is exactly: the three umlaut vowel glyphs add
1 to their base vowel and 1 to E; the sharp s adds 2 to S; the recognised
single-base accented glyphs (grave/acute/circumflex e; circumflex/grave/
acute/ring a; tilde n; acute i; circumflex/acute o; cedilla c; circumflex
u, in both cases) add 1 to their base letter; a plain letter adds 1 to its
own upper-case letter, case-insensitively; all other accented forms
(e.g. ì, î, ò, ù, ú, ã, õ, ë) are not recognised and contribute 0. -/
theorem glyph_table_amended (w : Word) (L : Char) :
    (letterCount w L = (w.map (fun c => letterCount [c] L)).sum) ∧
    (∀ c ∈ umlautA, letterCount [c] 'A' = 1 ∧ letterCount [c] 'E' = 1 ∧
      ∀ M ∈ AZ, M ≠ 'A' → M ≠ 'E' → letterCount [c] M = 0) ∧
    (∀ c ∈ umlautO, letterCount [c] 'O' = 1 ∧ letterCount [c] 'E' = 1 ∧
      ∀ M ∈ AZ, M ≠ 'O' → M ≠ 'E' → letterCount [c] M = 0) ∧
    (∀ c ∈ umlautU, letterCount [c] 'U' = 1 ∧ letterCount [c] 'E' = 1 ∧
      ∀ M ∈ AZ, M ≠ 'U' → M ≠ 'E' → letterCount [c] M = 0) ∧
    (∀ c ∈ eszett, letterCount [c] 'S' = 2 ∧
      ∀ M ∈ AZ, M ≠ 'S' → letterCount [c] M = 0) ∧
    (∀ c ∈ accentE, letterCount [c] 'E' = 1 ∧
      ∀ M ∈ AZ, M ≠ 'E' → letterCount [c] M = 0) ∧
    (∀ c ∈ accentA, letterCount [c] 'A' = 1 ∧
      ∀ M ∈ AZ, M ≠ 'A' → letterCount [c] M = 0) ∧
    (∀ c ∈ accentN, letterCount [c] 'N' = 1 ∧
      ∀ M ∈ AZ, M ≠ 'N' → letterCount [c] M = 0) ∧
    (∀ c ∈ accentI, letterCount [c] 'I' = 1 ∧
      ∀ M ∈ AZ, M ≠ 'I' → letterCount [c] M = 0) ∧
    (∀ c ∈ accentO, letterCount [c] 'O' = 1 ∧
      ∀ M ∈ AZ, M ≠ 'O' → letterCount [c] M = 0) ∧
    (∀ c ∈ accentC, letterCount [c] 'C' = 1 ∧
      ∀ M ∈ AZ, M ≠ 'C' → letterCount [c] M = 0) ∧
    (∀ c ∈ accentU, letterCount [c] 'U' = 1 ∧
      ∀ M ∈ AZ, M ≠ 'U' → letterCount [c] M = 0) ∧
    (∀ c ∈ AZ, ∀ M ∈ AZ, letterCount [c] M = if c = M then 1 else 0) ∧
    (∀ c ∈ AZ, ∀ M ∈ AZ, letterCount [c.toLower] M = if c = M then 1 else 0) ∧
    (∀ c ∈ (['ì', 'î', 'ò', 'ù', 'ú', 'ã', 'õ', 'ë'] : List Char),
      ∀ M ∈ AZ, letterCount [c] M = 0) :=
  ⟨letterCount_eq_sum w L, glyph_facts_umlautA, glyph_facts_umlautO,
    glyph_facts_umlautU, glyph_facts_eszett, glyph_facts_accentE,
    glyph_facts_accentA, glyph_facts_accentN, glyph_facts_accentI,
    glyph_facts_accentO, glyph_facts_accentC, glyph_facts_accentU,
    glyph_facts_upper, glyph_facts_lower, glyph_facts_unrecognised⟩

/-- C7 counterexample: the claim requires the mismatch diagnostic to name
the letter.  Two runs that differ only in the letter (Q versus Z, same
counts and values) produce byte-for-byte identical diagnostics, and the Q
run's diagnostic does not contain the letter Q at all: the diagnostic
names both values but not the letter. -/
theorem mismatch_message_cex :
    readCoinInventory [⟨'Q', "Queen", 4⟩] [⟨1, "Queen", 'Q', 5⟩] =
      .error (mismatchMsg 5 4) ∧
    readCoinInventory [⟨'Z', "Zebra", 4⟩] [⟨1, "Zebra", 'Z', 5⟩] =
      .error (mismatchMsg 5 4) ∧
    'Q' ∉ (mismatchMsg 5 4).toList ∧ 'Z' ∉ (mismatchMsg 5 4).toList := by
  with_unfolding_all decide

/-- C7 amended: a record whose total value divided by its count differs
from the catalog value for its letter aborts the whole run — before any
word filtering, whatever the corpus — with a diagnostic naming the found
and the expected value (but not the letter); when every record matches,
construction succeeds. -/
theorem inventory_mismatch_amended (config : Config)
    (catalogRaw : List CatalogRecord) (r : InventoryRecord)
    (rest inv2 : List InventoryRecord) (v : Int)
    (hc : 0 < r.count)
    (hl : catalogLookup (readCoinValues catalogRaw) r.letter.toUpper = some v)
    (hm : (r.value : ℚ) / (r.count : ℚ) ≠ (v : ℚ)) :
    (readCoinInventory (readCoinValues catalogRaw) (r :: rest) =
      .error (mismatchMsg ((r.value : ℚ) / (r.count : ℚ)) v)) ∧
    (∀ corpus : List CorpusEntry,
      mainRun config catalogRaw (r :: rest) corpus =
        .error (mismatchMsg ((r.value : ℚ) / (r.count : ℚ)) v)) ∧
    ((∀ r' ∈ inv2, ∃ v',
        catalogLookup (readCoinValues catalogRaw) r'.letter.toUpper = some v' ∧
        0 < r'.count ∧ (r'.value : ℚ) / (r'.count : ℚ) = (v' : ℚ)) →
      ∃ coins, readCoinInventory (readCoinValues catalogRaw) inv2 = .ok coins) ∧
    ((pyFloatStr ((r.value : ℚ) / (r.count : ℚ))).toList <:+:
      (mismatchMsg ((r.value : ℚ) / (r.count : ℚ)) v).toList) ∧
    ((toString v).toList <:+:
      (mismatchMsg ((r.value : ℚ) / (r.count : ℚ)) v).toList) := by
  have herr : readCoinInventory (readCoinValues catalogRaw) (r :: rest) =
      .error (mismatchMsg ((r.value : ℚ) / (r.count : ℚ)) v) := by
    rw [readCoinInventory_cons_some _ r rest v (by omega) hl, if_neg hm]
  refine ⟨herr, fun corpus => mainRun_inventory_error _ _ _ _ _ herr,
    readCoinInventory_ok_of_match _ inv2, ?_, ?_⟩
  · refine ⟨("Your wallet contains values that do not match the coin value index!: Found ").toList,
      (", but expected ").toList ++ (toString v).toList ++ (".").toList, ?_⟩
    rw [mismatchMsg_toList]
    simp [List.append_assoc]
  · refine ⟨("Your wallet contains values that do not match the coin value index!: Found ").toList
      ++ (pyFloatStr ((r.value : ℚ) / (r.count : ℚ))).toList
      ++ (", but expected ").toList, (".").toList, ?_⟩
    rw [mismatchMsg_toList]

/-- C7 witness: catalog value 4 for Q, one Q coin declared with total 5. -/
theorem inventory_mismatch_amended_witness :
    (readCoinInventory (readCoinValues [⟨'Q', "Queen", 4⟩])
        [⟨1, "Queen", 'Q', 5⟩] =
      .error (mismatchMsg (((5 : Int) : ℚ) / ((1 : Nat) : ℚ)) 4)) ∧
    (∀ corpus : List CorpusEntry,
      mainRun ⟨4, 0, 3⟩ [⟨'Q', "Queen", 4⟩] [⟨1, "Queen", 'Q', 5⟩] corpus =
        .error (mismatchMsg (((5 : Int) : ℚ) / ((1 : Nat) : ℚ)) 4)) ∧
    ((∀ r' ∈ ([⟨2, "Queen", 'Q', 8⟩] : List InventoryRecord), ∃ v',
        catalogLookup (readCoinValues [⟨'Q', "Queen", 4⟩]) r'.letter.toUpper
          = some v' ∧
        0 < r'.count ∧ (r'.value : ℚ) / (r'.count : ℚ) = (v' : ℚ)) →
      ∃ coins, readCoinInventory (readCoinValues [⟨'Q', "Queen", 4⟩])
        [⟨2, "Queen", 'Q', 8⟩] = .ok coins) ∧
    ((pyFloatStr (((5 : Int) : ℚ) / ((1 : Nat) : ℚ))).toList <:+:
      (mismatchMsg (((5 : Int) : ℚ) / ((1 : Nat) : ℚ)) 4).toList) ∧
    ((toString (4 : Int)).toList <:+:
      (mismatchMsg (((5 : Int) : ℚ) / ((1 : Nat) : ℚ)) 4).toList) :=
  inventory_mismatch_amended ⟨4, 0, 3⟩ [⟨'Q', "Queen", 4⟩]
    ⟨1, "Queen", 'Q', 5⟩ [] [⟨2, "Queen", 'Q', 8⟩] 4 (by decide) (by rfl)
    (by with_unfolding_all decide)

/-- C8: when the wallet total is below the target the run aborts with the
insufficient-funds error before any word filtering (for every corpus);
when the total reaches the target, the run proceeds to the word filter. -/
theorem insufficient_funds_aborts (config : Config)
    (catalogRaw : List CatalogRecord) (inv : List InventoryRecord)
    (corpus : List CorpusEntry) (coins : List Coin)
    (hok : readCoinInventory (readCoinValues catalogRaw) inv = .ok coins) :
    ((coins.map (fun c => c.value)).sum < (config.value : ℚ) →
      mainRun config catalogRaw inv corpus = .error insufficientMsg) ∧
    ((config.value : ℚ) ≤ (coins.map (fun c => c.value)).sum →
      mainRun config catalogRaw inv corpus =
        getAllValidWords config
          (fun L => (catalogLookup (readCoinValues catalogRaw) L).getD 0)
          (lettersInWallet coins)
          ((readCoinValues catalogRaw).map (fun r => r.letter)) corpus) := by
  constructor
  · intro hlt
    rw [mainRun_inventory_ok config catalogRaw inv corpus coins hok,
      if_pos hlt]
  · intro hge
    rw [mainRun_inventory_ok config catalogRaw inv corpus coins hok,
      if_neg (not_lt.2 hge)]

/-- C8 witness: one A coin worth 1 against target 4 (abort), and the same
wallet against target 1 (proceed). -/
theorem insufficient_funds_aborts_witness :
    ((([⟨"Ace", 'A', 1⟩] : List Coin).map (fun c => c.value)).sum <
        (((4 : Int)) : ℚ) →
      mainRun ⟨4, 0, 3⟩ [⟨'A', "Ace", 1⟩] [⟨1, "Ace", 'A', 1⟩] [] =
        .error insufficientMsg) ∧
    ((((4 : Int)) : ℚ) ≤
        (([⟨"Ace", 'A', 1⟩] : List Coin).map (fun c => c.value)).sum →
      mainRun ⟨4, 0, 3⟩ [⟨'A', "Ace", 1⟩] [⟨1, "Ace", 'A', 1⟩] [] =
        getAllValidWords ⟨4, 0, 3⟩
          (fun L => (catalogLookup (readCoinValues [⟨'A', "Ace", 1⟩]) L).getD 0)
          (lettersInWallet [⟨"Ace", 'A', 1⟩])
          ((readCoinValues [⟨'A', "Ace", 1⟩]).map (fun r => r.letter)) []) :=
  insufficient_funds_aborts ⟨4, 0, 3⟩ [⟨'A', "Ace", 1⟩] [⟨1, "Ace", 'A', 1⟩]
    [] [⟨"Ace", 'A', 1⟩] (by with_unfolding_all decide)

/-- C10: an inventory record is read as (count, total value); its per-unit
value is the real quotient total/count, compared against the integer
catalog value, so — over records with positive count and a catalogued
letter — the construction fails exactly when some record's total differs
from count times the catalog value; in particular a record whose total is
not a multiple of its count always fails. -/
theorem per_unit_mismatch_iff (cat : List CatalogRecord)
    (inv : List InventoryRecord)
    (hc : ∀ r ∈ inv, 0 < r.count)
    (hl : ∀ r ∈ inv, ∃ v, catalogLookup cat r.letter.toUpper = some v) :
    ((∃ msg, readCoinInventory cat inv = .error msg) ↔
      ∃ r ∈ inv, ∃ v, catalogLookup cat r.letter.toUpper = some v ∧
        r.value ≠ (r.count : Int) * v) ∧
    (∀ r ∈ inv, ∀ v : Int, catalogLookup cat r.letter.toUpper = some v →
      ¬ ((r.count : Int) ∣ r.value) →
      ∃ msg, readCoinInventory cat inv = .error msg) := by
  refine ⟨readCoinInventory_error_iff cat inv hc hl, ?_⟩
  intro r hr v hv hnd
  refine (readCoinInventory_error_iff cat inv hc hl).2 ⟨r, hr, v, hv, ?_⟩
  intro heq
  exact hnd ⟨v, heq⟩

/-- C10 witness: catalog value 4 for Q, a record of 2 coins with total 9
(not a multiple of 2, and 9 ≠ 2·4). -/
theorem per_unit_mismatch_iff_witness :
    ((∃ msg, readCoinInventory [⟨'Q', "Queen", 4⟩]
        [⟨2, "Queen", 'Q', 9⟩] = .error msg) ↔
      ∃ r ∈ ([⟨2, "Queen", 'Q', 9⟩] : List InventoryRecord), ∃ v,
        catalogLookup [⟨'Q', "Queen", 4⟩] r.letter.toUpper = some v ∧
        r.value ≠ (r.count : Int) * v) ∧
    (∀ r ∈ ([⟨2, "Queen", 'Q', 9⟩] : List InventoryRecord), ∀ v : Int,
      catalogLookup [⟨'Q', "Queen", 4⟩] r.letter.toUpper = some v →
      ¬ ((r.count : Int) ∣ r.value) →
      ∃ msg, readCoinInventory [⟨'Q', "Queen", 4⟩]
        [⟨2, "Queen", 'Q', 9⟩] = .error msg) :=
  per_unit_mismatch_iff [⟨'Q', "Queen", 4⟩] [⟨2, "Queen", 'Q', 9⟩]
    (by decide)
    (by
      intro r hr
      rw [List.mem_singleton] at hr
      subst hr
      exact ⟨4, rfl⟩)

end CoinCalc
